import Mathlib

/-!
Verification of the radix-sort kernel in src/radix.cpp (sort-bench).

Machine words are modelled as natural numbers below 2^32; unsigned wrap-around
arithmetic is written out explicitly as arithmetic modulo 2^32.  Buffers are
modelled as functions from index to word, histograms as functions from bucket
to count, and the imperative loops as structural recursions over lists.
-/

/-- FloatFlip from src/radix.cpp lines 61-64:
`uint32_t mask = -int32_t(f >> 31) | 0x80000000; return f ^ mask;`.
Unsigned negation `-x` is modelled as `(2^32 - x) % 2^32`. -/
def FloatFlip (f : Nat) : Nat :=
  f ^^^ (((2 ^ 32 - (f >>> 31)) % 2 ^ 32) ||| 0x80000000)

/-- IFloatFlip from src/radix.cpp lines 77-80:
`uint32_t mask = ((f >> 31) - 1) | 0x80000000; return f ^ mask;`.
The unsigned `- 1` wraps, so it is modelled as `(x + 2^32 - 1) % 2^32`. -/
def IFloatFlip (f : Nat) : Nat :=
  f ^^^ ((((f >>> 31) + (2 ^ 32 - 1)) % 2 ^ 32) ||| 0x80000000)

/-- Digit extractor `_0(x) = x & 0x7FF` (src/radix.cpp line 83). -/
def dig0 (x : Nat) : Nat := x &&& 0x7FF

/-- Digit extractor `_1(x) = x >> 11 & 0x7FF` (src/radix.cpp line 84). -/
def dig1 (x : Nat) : Nat := (x >>> 11) &&& 0x7FF

/-- Digit extractor `_2(x) = x >> 22` (src/radix.cpp line 85). -/
def dig2 (x : Nat) : Nat := x >>> 22

/-- Modelled from the spec: the sign bit (bit 31) of an IEEE-754 single
interpreted from its 32-bit pattern. -/
def fsign (f : Nat) : Bool := decide (2 ^ 31 ≤ f % 2 ^ 32)

/-- Modelled from the spec: the magnitude bits (exponent and mantissa,
bits 0-30) of an IEEE-754 single interpreted from its 32-bit pattern. -/
def fmag (f : Nat) : Nat := f % 2 ^ 31

/-- Modelled from the spec: a 32-bit pattern is a NaN exactly when its
magnitude bits exceed those of infinity (0x7F800000). -/
def isNaNBits (f : Nat) : Bool := decide (0x7F800000 < fmag f)

/-- Modelled from the spec: strict `<` comparison of two non-NaN IEEE-754
singles, phrased on their bit patterns.  The float value is
`(-1)^sign * val(magnitude)` with `val` strictly increasing and `val 0 = 0`,
which yields this sign/magnitude case split.  (On NaN patterns, which float
comparison would always reject, this is the same total preorder.) -/
def floatLt (a b : Nat) : Bool :=
  if fsign a then
    if fsign b then decide (fmag b < fmag a)
    else !(decide (fmag a = 0) && decide (fmag b = 0))
  else
    if fsign b then false else decide (fmag a < fmag b)

/-- Modelled from the spec: `≤` comparison of two non-NaN IEEE-754 singles on
their bit patterns; `floatLe a b` is the negation of `floatLt b a`. -/
def floatLe (a b : Nat) : Bool :=
  if fsign a then
    if fsign b then decide (fmag b ≤ fmag a) else true
  else
    if fsign b then decide (fmag a = 0) && decide (fmag b = 0)
    else decide (fmag a ≤ fmag b)

/-! ### The RadixSort11 state model

The two word buffers (the caller's `farray`/`sorted`, both viewed as
`uint32_t*` in the source) are modelled as functions from index to word,
written with pointwise update `upd`; the three 2048-entry histograms are
likewise functions from bucket to count. -/

/-- Pointwise update of a buffer, modelling `buf[i] = v`. -/
def upd (f : Nat → Nat) (i v : Nat) : Nat → Nat :=
  fun j => if j = i then v else f j

/-- Zero-initialization loop `for (i = 0; i < kHist * 3; i++) b0[i] = 0;`
(src/radix.cpp lines 102-104), covering the three consecutive histograms. -/
def zeroHist : (Nat → Nat) × (Nat → Nat) × (Nat → Nat) :=
  (fun _ => 0, fun _ => 0, fun _ => 0)

/-- Histogram pass (src/radix.cpp lines 109-117): one linear scan over the
input; for each element the flipped key is computed and all three histograms
are bumped, with uint32 wrap-around on the counters. -/
def histPass : List Nat → (Nat → Nat) × (Nat → Nat) × (Nat → Nat) →
    (Nat → Nat) × (Nat → Nat) × (Nat → Nat)
  | [], bs => bs
  | x :: t, (b0, b1, b2) =>
      histPass t
        (upd b0 (dig0 (FloatFlip x)) ((b0 (dig0 (FloatFlip x)) + 1) % 2 ^ 32),
         upd b1 (dig1 (FloatFlip x)) ((b1 (dig1 (FloatFlip x)) + 1) % 2 ^ 32),
         upd b2 (dig2 (FloatFlip x)) ((b2 (dig2 (FloatFlip x)) + 1) % 2 ^ 32))

/-- Body of the prefix-sum loop (src/radix.cpp lines 121-137) for one
histogram: `tsum = b[i] + sum; b[i] = sum - 1; sum = tsum;` with uint32
wrap-around (`sum - 1` is `(sum + 2^32 - 1) % 2^32`).  The source interleaves
the three histograms in a single loop over `i`; the three counter/table pairs
are independent, so each table is modelled by its own fold over the same
index list. -/
def sumFold : List Nat → (Nat → Nat) → Nat → (Nat → Nat)
  | [], b, _ => b
  | i :: rest, b, sum =>
      sumFold rest (upd b i ((sum + (2 ^ 32 - 1)) % 2 ^ 32)) ((b i + sum) % 2 ^ 32)

/-- Prefix-sum conversion of one 2048-entry histogram into an offset table. -/
def prefixSums (b : Nat → Nat) : Nat → Nat :=
  sumFold (List.range 2048) b 0

/-- One scatter pass (src/radix.cpp lines 140-147, 151-156, 160-166):
for each source element `x` in scan order, the digit `d x` selects a bucket,
the bucket's offset entry is pre-incremented (uint32 wrap-around), and
`st x` is stored at the incremented offset (`st` is the identity in the first
two passes and `IFloatFlip` in the last one).  Returns the final offset table
and the final destination buffer. -/
def scatterFold (d st : Nat → Nat) : List Nat → (Nat → Nat) → (Nat → Nat) →
    (Nat → Nat) × (Nat → Nat)
  | [], b, out => (b, out)
  | x :: t, b, out =>
      scatterFold d st t (upd b (d x) ((b (d x) + 1) % 2 ^ 32))
        (upd out ((b (d x) + 1) % 2 ^ 32) (st x))

/-- RadixSort11 (src/radix.cpp lines 90-170).  `input` is the initial content
of the `farray` buffer (as 32-bit patterns) and `sortInit` the prior content
of the caller's `sorted` buffer.  Pass A reads `farray`, flips each element
and scatters it into `sorted` by its low digit; pass B reads `sorted` back
and scatters into `farray` by the mid digit; pass C reads `farray` and
scatters into `sorted` by the high digit, unflipping on the way out.  The
result is the pair (final `farray` buffer, final `sorted` buffer). -/
def RadixSort11 (input : List Nat) (sortInit : Nat → Nat) :
    (Nat → Nat) × (Nat → Nat) :=
  let n := input.length
  let bs := histPass input zeroHist
  let b0 := prefixSums bs.1
  let b1 := prefixSums bs.2.1
  let b2 := prefixSums bs.2.2
  let pA := scatterFold dig0 (fun x => x) (input.map FloatFlip) b0 sortInit
  let pB := scatterFold dig1 (fun x => x) ((List.range n).map pA.2) b1
    (fun i => input.getD i 0)
  let pC := scatterFold dig2 IFloatFlip ((List.range n).map pB.2) b2 pA.2
  (pB.2, pC.2)

/-! ### Counting specifications -/

/-- Number of elements of `l` whose digit (under `d`) equals `v`. -/
def cnt (d : Nat → Nat) (v : Nat) (l : List Nat) : Nat :=
  (l.filter (fun x => d x = v)).length

/-- Number of elements of `l` whose digit (under `d`) is strictly below `v`. -/
def cntLt (d : Nat → Nat) (v : Nat) (l : List Nat) : Nat :=
  (l.filter (fun x => d x < v)).length

/-- The stable bucket decomposition: all elements with digit 0 in scan order,
then all elements with digit 1, and so on through bucket 2047. -/
def blocks (d : Nat → Nat) (l : List Nat) : List Nat :=
  ((List.range 2048).map (fun v => l.filter (fun x => d x = v))).flatten

/-- Sum of buffer entries over the index window from j to j + k (exclusive). -/
def sumSeg (b : Nat → Nat) : Nat → Nat → Nat
  | _, 0 => 0
  | j, k + 1 => b j + sumSeg b (j + 1) k

/-! ### Bit-level arithmetic lemmas -/

theorem xor_eq_add_of_and_eq_zero (a : Nat) :
    ∀ b : Nat, a &&& b = 0 → a ^^^ b = a + b := by
  induction a using Nat.strong_induction_on with
  | _ a ih =>
    intro b hab
    rcases Nat.eq_zero_or_pos a with ha | ha
    · subst ha; simp
    · have hd : a / 2 &&& b / 2 = 0 := by rw [← Nat.and_div_two, hab]
      have ih2 := ih (a / 2) (Nat.div_lt_self ha (by omega)) (b / 2) hd
      have hx2 : (a ^^^ b) / 2 = a / 2 + b / 2 := by rw [Nat.xor_div_two, ih2]
      have hm : ¬(a % 2 = 1 ∧ b % 2 = 1) := by
        intro h
        have h1 : (a &&& b) % 2 = 1 := Nat.and_mod_two_eq_one.mpr h
        rw [hab] at h1
        omega
      have hxm := @Nat.xor_mod_two_eq_one a b
      omega

theorem and_two_pow_31_eq_zero {f : Nat} (h : f < 2 ^ 31) : f &&& 2 ^ 31 = 0 := by
  apply Nat.eq_of_testBit_eq
  intro i
  simp only [Nat.testBit_and, Nat.zero_testBit, Nat.testBit_two_pow]
  rcases eq_or_ne 31 i with rfl | hne
  · simp [Nat.testBit_lt_two_pow h]
  · simp [hne]

theorem xor_two_pow_31 {f : Nat} (h : f < 2 ^ 31) : f ^^^ 2 ^ 31 = f + 2 ^ 31 :=
  xor_eq_add_of_and_eq_zero f (2 ^ 31) (and_two_pow_31_eq_zero h)

theorem xor_two_pow_31_high {f : Nat} (h1 : 2 ^ 31 ≤ f) (h2 : f < 2 ^ 32) :
    f ^^^ 2 ^ 31 = f - 2 ^ 31 := by
  have hs : f - 2 ^ 31 < 2 ^ 31 := by omega
  have hf : (f - 2 ^ 31) + 2 ^ 31 = f := by omega
  conv_lhs => rw [← hf]
  rw [← xor_two_pow_31 hs, Nat.xor_assoc, Nat.xor_self, Nat.xor_zero]

theorem and_xor_allones_eq_zero {f : Nat} (h : f < 2 ^ 32) :
    f &&& (f ^^^ (2 ^ 32 - 1)) = 0 := by
  apply Nat.eq_of_testBit_eq
  intro i
  simp only [Nat.testBit_and, Nat.testBit_xor, Nat.testBit_two_pow_sub_one,
    Nat.zero_testBit]
  by_cases hi : i < 32
  · simp [hi]
  · have hf : f.testBit i = false := by
      apply Nat.testBit_lt_two_pow
      calc f < 2 ^ 32 := h
        _ ≤ 2 ^ i := Nat.pow_le_pow_right (by omega) (by omega)
    simp [hf]

theorem xor_allones {f : Nat} (h : f < 2 ^ 32) :
    f ^^^ (2 ^ 32 - 1) = 2 ^ 32 - 1 - f := by
  have h1 : f ^^^ (f ^^^ (2 ^ 32 - 1)) = 2 ^ 32 - 1 := by
    rw [← Nat.xor_assoc, Nat.xor_self, Nat.zero_xor]
  have h2 := xor_eq_add_of_and_eq_zero f (f ^^^ (2 ^ 32 - 1)) (and_xor_allones_eq_zero h)
  omega

theorem shiftRight31_eq (f : Nat) : f >>> 31 = f / 2 ^ 31 :=
  Nat.shiftRight_eq_div_pow f 31

/-- Closed form of FloatFlip on a non-negative float pattern. -/
theorem floatFlip_pos {f : Nat} (h : f < 2 ^ 31) : FloatFlip f = f + 2 ^ 31 := by
  unfold FloatFlip
  have h31 : f >>> 31 = 0 := by rw [shiftRight31_eq]; omega
  rw [h31]
  have hmask : ((2 ^ 32 - (0 : Nat)) % 2 ^ 32) ||| 0x80000000 = 2 ^ 31 := by decide
  rw [hmask]
  exact xor_two_pow_31 h

/-- Closed form of FloatFlip on a negative float pattern. -/
theorem floatFlip_neg {f : Nat} (h1 : 2 ^ 31 ≤ f) (h2 : f < 2 ^ 32) :
    FloatFlip f = 2 ^ 32 - 1 - f := by
  unfold FloatFlip
  have h31 : f >>> 31 = 1 := by rw [shiftRight31_eq]; omega
  rw [h31]
  have hmask : ((2 ^ 32 - (1 : Nat)) % 2 ^ 32) ||| 0x80000000 = 2 ^ 32 - 1 := by decide
  rw [hmask]
  exact xor_allones h2

/-- Closed form of IFloatFlip on a key with clear sign bit (originally negative). -/
theorem iFloatFlip_pos {f : Nat} (h : f < 2 ^ 31) : IFloatFlip f = 2 ^ 32 - 1 - f := by
  unfold IFloatFlip
  have h31 : f >>> 31 = 0 := by rw [shiftRight31_eq]; omega
  rw [h31]
  have hmask : (((0 : Nat) + (2 ^ 32 - 1)) % 2 ^ 32) ||| 0x80000000 = 2 ^ 32 - 1 := by decide
  rw [hmask]
  exact xor_allones (by omega)

/-- Closed form of IFloatFlip on a key with set sign bit (originally positive). -/
theorem iFloatFlip_neg {f : Nat} (h1 : 2 ^ 31 ≤ f) (h2 : f < 2 ^ 32) :
    IFloatFlip f = f - 2 ^ 31 := by
  unfold IFloatFlip
  have h31 : f >>> 31 = 1 := by rw [shiftRight31_eq]; omega
  rw [h31]
  have hmask : (((1 : Nat) + (2 ^ 32 - 1)) % 2 ^ 32) ||| 0x80000000 = 2 ^ 31 := by decide
  rw [hmask]
  exact xor_two_pow_31_high h1 h2

theorem floatFlip_lt {f : Nat} (h : f < 2 ^ 32) : FloatFlip f < 2 ^ 32 := by
  by_cases hs : f < 2 ^ 31
  · rw [floatFlip_pos hs]; omega
  · rw [floatFlip_neg (by omega) h]; omega

theorem iFloatFlip_lt {f : Nat} (h : f < 2 ^ 32) : IFloatFlip f < 2 ^ 32 := by
  by_cases hs : f < 2 ^ 31
  · rw [iFloatFlip_pos hs]; omega
  · rw [iFloatFlip_neg (by omega) h]; omega

theorem iFloatFlip_floatFlip {f : Nat} (h : f < 2 ^ 32) :
    IFloatFlip (FloatFlip f) = f := by
  by_cases hs : f < 2 ^ 31
  · rw [floatFlip_pos hs, iFloatFlip_neg (by omega) (by omega)]; omega
  · rw [floatFlip_neg (by omega) h, iFloatFlip_pos (by omega)]; omega

theorem floatFlip_iFloatFlip {f : Nat} (h : f < 2 ^ 32) :
    FloatFlip (IFloatFlip f) = f := by
  by_cases hs : f < 2 ^ 31
  · rw [iFloatFlip_pos hs, floatFlip_neg (by omega) (by omega)]; omega
  · rw [iFloatFlip_neg (by omega) h, floatFlip_pos (by omega)]; omega

/-- FloatFlip is strictly monotone from float order to unsigned order. -/
theorem floatFlip_strictMono {a b : Nat} (ha : a < 2 ^ 32) (hb : b < 2 ^ 32)
    (hab : floatLt a b = true) : FloatFlip a < FloatFlip b := by
  unfold floatLt fsign fmag at hab
  split_ifs at hab with h1 h2 h3
  · replace h1 : 2 ^ 31 ≤ a % 2 ^ 32 := of_decide_eq_true h1
    replace h2 : 2 ^ 31 ≤ b % 2 ^ 32 := of_decide_eq_true h2
    replace hab : b % 2 ^ 31 < a % 2 ^ 31 := of_decide_eq_true hab
    rw [floatFlip_neg (by omega) ha, floatFlip_neg (by omega) hb]
    omega
  · replace h1 : 2 ^ 31 ≤ a % 2 ^ 32 := of_decide_eq_true h1
    replace h2 : ¬2 ^ 31 ≤ b % 2 ^ 32 := fun hp => h2 (decide_eq_true hp)
    rw [floatFlip_neg (by omega) ha, floatFlip_pos (by omega)]
    omega
  · replace h1 : ¬2 ^ 31 ≤ a % 2 ^ 32 := fun hp => h1 (decide_eq_true hp)
    replace h3 : ¬2 ^ 31 ≤ b % 2 ^ 32 := fun hp => h3 (decide_eq_true hp)
    replace hab : a % 2 ^ 31 < b % 2 ^ 31 := of_decide_eq_true hab
    rw [floatFlip_pos (by omega), floatFlip_pos (by omega)]
    omega

/-- FloatFlip monotonicity transfers back through IFloatFlip to the float order. -/
theorem floatLe_of_flip_le {x y : Nat} (hx : x < 2 ^ 32) (hy : y < 2 ^ 32)
    (hle : FloatFlip x ≤ FloatFlip y) : floatLe x y = true := by
  unfold floatLe fsign fmag
  by_cases hsx : 2 ^ 31 ≤ x % 2 ^ 32
  · by_cases hsy : 2 ^ 31 ≤ y % 2 ^ 32
    · rw [if_pos (decide_eq_true hsx), if_pos (decide_eq_true hsy)]
      rw [floatFlip_neg (by omega) hx, floatFlip_neg (by omega) hy] at hle
      exact decide_eq_true (by omega)
    · rw [if_pos (decide_eq_true hsx), if_neg (fun hc => hsy (of_decide_eq_true hc))]
  · by_cases hsy : 2 ^ 31 ≤ y % 2 ^ 32
    · rw [floatFlip_pos (by omega), floatFlip_neg (by omega) hy] at hle
      exact absurd hle (by omega)
    · rw [if_neg (fun hc => hsx (of_decide_eq_true hc)),
        if_neg (fun hc => hsy (of_decide_eq_true hc))]
      rw [floatFlip_pos (by omega), floatFlip_pos (by omega)] at hle
      exact decide_eq_true (by omega)

theorem testBit31_eq {f : Nat} (h : f < 2 ^ 32) :
    f.testBit 31 = decide (2 ^ 31 ≤ f) := by
  rw [Nat.testBit_to_div_mod, decide_eq_decide]
  omega

/-! ### Buffer and counting lemmas -/

theorem upd_self {f : Nat → Nat} {i v : Nat} : upd f i v i = v := by
  simp [upd]

theorem upd_of_ne {f : Nat → Nat} {i v j : Nat} (h : j ≠ i) : upd f i v j = f j := by
  simp [upd, h]

theorem cnt_nil (d : Nat → Nat) (v : Nat) : cnt d v [] = 0 := rfl

theorem cnt_cons_self {d : Nat → Nat} {x v : Nat} (h : d x = v) (t : List Nat) :
    cnt d v (x :: t) = cnt d v t + 1 := by
  simp [cnt, List.filter_cons, h]

theorem cnt_cons_ne {d : Nat → Nat} {x v : Nat} (h : ¬d x = v) (t : List Nat) :
    cnt d v (x :: t) = cnt d v t := by
  simp [cnt, List.filter_cons, h]

theorem cnt_append (d : Nat → Nat) (v : Nat) (l1 l2 : List Nat) :
    cnt d v (l1 ++ l2) = cnt d v l1 + cnt d v l2 := by
  simp [cnt, List.filter_append]

theorem cntLt_zero (d : Nat → Nat) (l : List Nat) : cntLt d 0 l = 0 := by
  simp [cntLt]

theorem cntLt_succ (d : Nat → Nat) (v : Nat) (l : List Nat) :
    cntLt d (v + 1) l = cntLt d v l + cnt d v l := by
  induction l with
  | nil => rfl
  | cons x t ih =>
    simp only [cntLt, cnt, List.filter_cons] at ih ⊢
    by_cases h1 : d x < v + 1 <;> by_cases h2 : d x < v <;> by_cases h3 : d x = v <;>
      simp [h1, h2, h3] <;> omega

theorem cntLt_le_length (d : Nat → Nat) (v : Nat) (l : List Nat) :
    cntLt d v l ≤ l.length :=
  List.length_filter_le _ l

theorem cntLt_mono (d : Nat → Nat) (l : List Nat) {v w : Nat} (h : v ≤ w) :
    cntLt d v l ≤ cntLt d w l := by
  induction w, h using Nat.le_induction with
  | base => exact Nat.le_refl _
  | succ w hw ih =>
    rw [cntLt_succ]
    omega

theorem cntLt_eq_length {d : Nat → Nat} {l : List Nat} {V : Nat}
    (h : ∀ x ∈ l, d x < V) : cntLt d V l = l.length := by
  unfold cntLt
  have he : l.filter (fun x => d x < V) = l :=
    List.filter_eq_self.mpr fun a ha => decide_eq_true (h a ha)
  rw [he]

/-! ### Histogram pass lemmas -/

theorem histPass_fst (l : List Nat) : ∀ (b0 b1 b2 : Nat → Nat) (v : Nat),
    b0 v < 2 ^ 32 →
    (histPass l (b0, b1, b2)).1 v =
      (b0 v + cnt (fun x => dig0 (FloatFlip x)) v l) % 2 ^ 32 := by
  induction l with
  | nil =>
    intro b0 b1 b2 v hb
    show b0 v = (b0 v + cnt (fun x => dig0 (FloatFlip x)) v []) % 2 ^ 32
    rw [cnt_nil, Nat.add_zero, Nat.mod_eq_of_lt hb]
  | cons x t ih =>
    intro b0 b1 b2 v hb
    simp only [histPass]
    by_cases h : dig0 (FloatFlip x) = v
    · rw [h, ih _ _ _ v (by rw [upd_self]; exact Nat.mod_lt _ (by omega)), upd_self,
        @cnt_cons_self (fun y => dig0 (FloatFlip y)) x v h t, Nat.mod_add_mod]
      congr 1
      omega
    · rw [ih _ _ _ v (by rw [upd_of_ne (fun hv => h hv.symm)]; exact hb),
        upd_of_ne (fun hv => h hv.symm),
        @cnt_cons_ne (fun y => dig0 (FloatFlip y)) x v h t]

theorem histPass_snd1 (l : List Nat) : ∀ (b0 b1 b2 : Nat → Nat) (v : Nat),
    b1 v < 2 ^ 32 →
    (histPass l (b0, b1, b2)).2.1 v =
      (b1 v + cnt (fun x => dig1 (FloatFlip x)) v l) % 2 ^ 32 := by
  induction l with
  | nil =>
    intro b0 b1 b2 v hb
    show b1 v = (b1 v + cnt (fun x => dig1 (FloatFlip x)) v []) % 2 ^ 32
    rw [cnt_nil, Nat.add_zero, Nat.mod_eq_of_lt hb]
  | cons x t ih =>
    intro b0 b1 b2 v hb
    simp only [histPass]
    by_cases h : dig1 (FloatFlip x) = v
    · rw [h, ih _ _ _ v (by rw [upd_self]; exact Nat.mod_lt _ (by omega)), upd_self,
        @cnt_cons_self (fun y => dig1 (FloatFlip y)) x v h t, Nat.mod_add_mod]
      congr 1
      omega
    · rw [ih _ _ _ v (by rw [upd_of_ne (fun hv => h hv.symm)]; exact hb),
        upd_of_ne (fun hv => h hv.symm),
        @cnt_cons_ne (fun y => dig1 (FloatFlip y)) x v h t]

theorem histPass_snd2 (l : List Nat) : ∀ (b0 b1 b2 : Nat → Nat) (v : Nat),
    b2 v < 2 ^ 32 →
    (histPass l (b0, b1, b2)).2.2 v =
      (b2 v + cnt (fun x => dig2 (FloatFlip x)) v l) % 2 ^ 32 := by
  induction l with
  | nil =>
    intro b0 b1 b2 v hb
    show b2 v = (b2 v + cnt (fun x => dig2 (FloatFlip x)) v []) % 2 ^ 32
    rw [cnt_nil, Nat.add_zero, Nat.mod_eq_of_lt hb]
  | cons x t ih =>
    intro b0 b1 b2 v hb
    simp only [histPass]
    by_cases h : dig2 (FloatFlip x) = v
    · rw [h, ih _ _ _ v (by rw [upd_self]; exact Nat.mod_lt _ (by omega)), upd_self,
        @cnt_cons_self (fun y => dig2 (FloatFlip y)) x v h t, Nat.mod_add_mod]
      congr 1
      omega
    · rw [ih _ _ _ v (by rw [upd_of_ne (fun hv => h hv.symm)]; exact hb),
        upd_of_ne (fun hv => h hv.symm),
        @cnt_cons_ne (fun y => dig2 (FloatFlip y)) x v h t]

/-! ### Prefix-sum pass lemmas -/

theorem sumSeg_succ_right (b : Nat → Nat) : ∀ (k j : Nat),
    sumSeg b j (k + 1) = sumSeg b j k + b (j + k) := by
  intro k
  induction k with
  | zero =>
    intro j
    simp [sumSeg]
  | succ k ih =>
    intro j
    show b j + sumSeg b (j + 1) (k + 1) = (b j + sumSeg b (j + 1) k) + b (j + (k + 1))
    rw [ih (j + 1)]
    have : j + 1 + k = j + (k + 1) := by omega
    rw [this]
    omega

theorem sumSeg_congr {b b' : Nat → Nat} : ∀ (k j : Nat),
    (∀ i, j ≤ i → i < j + k → b i = b' i) → sumSeg b j k = sumSeg b' j k := by
  intro k
  induction k with
  | zero => intro j _; rfl
  | succ k ih =>
    intro j h
    show b j + sumSeg b (j + 1) k = b' j + sumSeg b' (j + 1) k
    rw [h j (by omega) (by omega), ih (j + 1) (fun i h1 h2 => h i (by omega) (by omega))]

theorem sumFold_spec : ∀ (k j : Nat) (b : Nat → Nat) (s v : Nat),
    sumFold (List.range' j k) b s v =
      if v < j ∨ j + k ≤ v then b v
      else (s + sumSeg b j (v - j) + (2 ^ 32 - 1)) % 2 ^ 32 := by
  intro k
  induction k with
  | zero =>
    intro j b s v
    have hr : List.range' j 0 = [] := rfl
    rw [hr, if_pos (by omega)]
    rfl
  | succ k ih =>
    intro j b s v
    rw [List.range'_succ]
    simp only [sumFold]
    rw [ih (j + 1) _ _ v]
    by_cases hv1 : v < j + 1 ∨ j + 1 + k ≤ v
    · rw [if_pos hv1]
      by_cases hv : v = j
      · subst hv
        rw [upd_self, if_neg (by omega), Nat.sub_self]
        have hs : sumSeg b v 0 = 0 := rfl
        rw [hs, Nat.add_zero]
      · rw [upd_of_ne hv, if_pos (by omega)]
    · rw [if_neg hv1, if_neg (by omega)]
      have hseg : sumSeg (upd b j ((s + (2 ^ 32 - 1)) % 2 ^ 32)) (j + 1) (v - (j + 1)) =
          sumSeg b (j + 1) (v - (j + 1)) :=
        sumSeg_congr _ _ (fun i h1 h2 => upd_of_ne (by omega))
      rw [hseg]
      have hdec : sumSeg b j (v - j) = b j + sumSeg b (j + 1) (v - (j + 1)) := by
        have hvj : v - j = (v - (j + 1)) + 1 := by omega
        rw [hvj]
        rfl
      rw [hdec]
      omega

theorem prefixSums_spec (b : Nat → Nat) {v : Nat} (hv : v < 2048) :
    prefixSums b v = (sumSeg b 0 v + (2 ^ 32 - 1)) % 2 ^ 32 := by
  unfold prefixSums
  rw [List.range_eq_range', sumFold_spec, if_neg (by omega)]
  simp

theorem cnt_singleton_self {d : Nat → Nat} {x w : Nat} (h : d x = w) :
    cnt d w [x] = 1 := by
  simp [cnt, List.filter_cons, h]

theorem cnt_singleton_ne {d : Nat → Nat} {x w : Nat} (h : ¬d x = w) :
    cnt d w [x] = 0 := by
  simp [cnt, List.filter_cons, h]

theorem getD_append_length : ∀ (l1 : List Nat) (x : Nat) (l2 : List Nat) (dv : Nat),
    (l1 ++ x :: l2).getD l1.length dv = x := by
  intro l1
  induction l1 with
  | nil => intro x l2 dv; rfl
  | cons y t ih => intro x l2 dv; simpa using ih x l2 dv

theorem getD_append_left : ∀ (l1 l2 : List Nat) (j dv : Nat), j < l1.length →
    (l1 ++ l2).getD j dv = l1.getD j dv := by
  intro l1
  induction l1 with
  | nil => intro l2 j dv h; simp at h
  | cons y t ih =>
    intro l2 j dv h
    cases j with
    | zero => rfl
    | succ j => simpa using ih l2 j dv (by simpa using h)

theorem sumSeg_cnt {d : Nat → Nat} {l : List Nat} {b : Nat → Nat}
    (hb : ∀ v, v < 2048 → b v = cnt d v l) :
    ∀ v, v ≤ 2048 → sumSeg b 0 v = cntLt d v l := by
  intro v
  induction v with
  | zero =>
    intro _
    rw [cntLt_zero]
    rfl
  | succ v ih =>
    intro hv
    rw [sumSeg_succ_right, Nat.zero_add, ih (by omega), hb v (by omega), cntLt_succ]

/-! ### Scatter pass correctness

The central invariant: with the offset table produced by the prefix-sum pass,
the pre-increment scatter places the j-th element of digit value v (in scan
order) at absolute index `cntLt v + j`, i.e. it performs a stable counting
sort on one digit. -/

theorem scatterFold_spec (d st : Nat → Nat) (L : List Nat)
    (hd : ∀ x ∈ L, d x < 2048) (hL : L.length < 2 ^ 32) :
    ∀ (todo done : List Nat) (b out : Nat → Nat),
      L = done ++ todo →
      (∀ v, v < 2048 → b v = (cntLt d v L + cnt d v done + (2 ^ 32 - 1)) % 2 ^ 32) →
      (∀ v, v < 2048 → ∀ j, j < cnt d v done →
        out (cntLt d v L + j) = st ((L.filter (fun z => d z = v)).getD j 0)) →
      ∀ v, v < 2048 → ∀ j, j < cnt d v L →
        (scatterFold d st todo b out).2 (cntLt d v L + j) =
          st ((L.filter (fun z => d z = v)).getD j 0) := by
  intro todo
  induction todo with
  | nil =>
    intro done b out hsplit hb hout v hv j hj
    have hdone : done = L := by rw [hsplit, List.append_nil]
    exact hout v hv j (by rw [hdone]; exact hj)
  | cons x t ih =>
    intro done b out hsplit hb hout v hv j hj
    have hxL : x ∈ L := by
      rw [hsplit]
      exact List.mem_append.mpr (Or.inr (List.mem_cons_self x t))
    have hpos : d x < 2048 := hd x hxL
    have hcnt_split : ∀ w, cnt d w L = cnt d w done + cnt d w (x :: t) := by
      intro w
      rw [hsplit, cnt_append]
    have hltc : cnt d (d x) done < cnt d (d x) L := by
      have h1 : cnt d (d x) (x :: t) = cnt d (d x) t + 1 := cnt_cons_self rfl t
      have h2 := hcnt_split (d x)
      omega
    have hbound : ∀ w, cntLt d w L + cnt d w L ≤ L.length := by
      intro w
      rw [← cntLt_succ]
      exact cntLt_le_length d (w + 1) L
    have hsmall : cntLt d (d x) L + cnt d (d x) done < 2 ^ 32 := by
      have := hbound (d x)
      omega
    have hidx : (b (d x) + 1) % 2 ^ 32 = cntLt d (d x) L + cnt d (d x) done := by
      rw [hb (d x) hpos, Nat.mod_add_mod]
      omega
    simp only [scatterFold]
    rw [hidx]
    refine ih (done ++ [x]) _ _ ?_ ?_ ?_ v hv j hj
    · rw [hsplit, List.append_assoc]
      rfl
    · intro w hw
      by_cases hwx : w = d x
      · subst hwx
        rw [upd_self, cnt_append, cnt_singleton_self rfl]
        omega
      · rw [upd_of_ne hwx, hb w hw, cnt_append,
          cnt_singleton_ne (fun he => hwx he.symm), Nat.add_zero]
    · intro w hw jj hjj
      by_cases hwx : w = d x
      · subst hwx
        rw [cnt_append, cnt_singleton_self rfl] at hjj
        by_cases hjlast : jj = cnt d (d x) done
        · subst hjlast
          rw [upd_self]
          have hF : L.filter (fun z => d z = d x) =
              done.filter (fun z => d z = d x) ++ x :: t.filter (fun z => d z = d x) := by
            rw [hsplit, List.filter_append, List.filter_cons]
            simp
          rw [hF]
          have hlen : cnt d (d x) done = (done.filter (fun z => d z = d x)).length := rfl
          rw [hlen, getD_append_length]
        · have hjj' : jj < cnt d (d x) done := by omega
          rw [upd_of_ne (by omega)]
          exact hout (d x) hw jj hjj'
      · rw [cnt_append, cnt_singleton_ne (fun he => hwx he.symm), Nat.add_zero] at hjj
        have hcle : cnt d w done ≤ cnt d w L := by
          have := hcnt_split w
          omega
        have hne : cntLt d w L + jj ≠ cntLt d (d x) L + cnt d (d x) done := by
          rcases Nat.lt_or_ge w (d x) with hlt | hge
          · have hm : cntLt d (w + 1) L ≤ cntLt d (d x) L := cntLt_mono d L (by omega)
            have hs := cntLt_succ d w L
            omega
          · have hwgt : d x < w := by omega
            have hm : cntLt d (d x + 1) L ≤ cntLt d w L := cntLt_mono d L (by omega)
            have hs := cntLt_succ d (d x) L
            omega
        rw [upd_of_ne hne]
        exact hout w hw jj hjj

theorem getD_eq_getElem {l : List Nat} {i : Nat} (h : i < l.length) :
    l.getD i 0 = l[i] := by
  rw [List.getD_eq_getElem?_getD, List.getElem?_eq_getElem h]
  rfl

/-- Reading back the scatter output buffer over indices 0..n-1 yields exactly
the stable bucket decomposition (with the store transform applied). -/
theorem scatter_out_blocks (d st : Nat → Nat) (L : List Nat) (outF : Nat → Nat)
    (hd : ∀ x ∈ L, d x < 2048)
    (hplace : ∀ v, v < 2048 → ∀ j, j < cnt d v L →
      outF (cntLt d v L + j) = st ((L.filter (fun z => d z = v)).getD j 0)) :
    (List.range L.length).map outF = (blocks d L).map st := by
  have hstep : ∀ V, V ≤ 2048 →
      (List.range' 0 (cntLt d V L)).map outF =
        (((List.range V).map (fun v => L.filter (fun z => d z = v))).flatten).map st := by
    intro V
    induction V with
    | zero =>
      intro _
      rw [cntLt_zero]
      rfl
    | succ V ih =>
      intro hV
      rw [cntLt_succ, Nat.add_comm, ← List.range'_append_1 0 (cntLt d V L) (cnt d V L),
        List.map_append, List.range_succ, List.map_append, List.flatten_append,
        List.map_append]
      congr 1
      · exact ih (by omega)
      · simp only [List.map_cons, List.map_nil, List.flatten_cons, List.flatten_nil,
          List.append_nil]
        apply List.ext_getElem
        · simp only [List.length_map, List.length_range']
          rfl
        · intro i h1 h2
          simp only [List.getElem_map, List.getElem_range']
          have hi : i < cnt d V L := by simpa using h1
          have hp := hplace V (by omega) i hi
          have harg : 0 + cntLt d V L + 1 * i = cntLt d V L + i := by omega
          rw [harg, hp]
          congr 1
          exact getD_eq_getElem (by simpa using h2)
  have h2048 := hstep 2048 (Nat.le_refl _)
  rw [cntLt_eq_length hd] at h2048
  rw [List.range_eq_range']
  exact h2048

/-- One complete scatter pass, from the offset table produced by the prefix
sums: the destination buffer read back in order is the stable counting sort of
the source by the given digit, with the store transform applied. -/
theorem pass_output (d st : Nat → Nat) (src : List Nat) (bInit out0 : Nat → Nat)
    (hd : ∀ x ∈ src, d x < 2048) (hlen : src.length < 2 ^ 32)
    (hb : ∀ v, v < 2048 → bInit v = (cntLt d v src + (2 ^ 32 - 1)) % 2 ^ 32) :
    (List.range src.length).map (scatterFold d st src bInit out0).2 =
      (blocks d src).map st := by
  apply scatter_out_blocks d st src _ hd
  intro v hv j hj
  refine scatterFold_spec d st src hd hlen src [] bInit out0 rfl ?_ ?_ v hv j hj
  · intro w hw
    rw [cnt_nil, Nat.add_zero]
    exact hb w hw
  · intro w hw jj hjj
    rw [cnt_nil] at hjj
    omega

/-! ### The bucket decomposition is a permutation -/

theorem sum_ite_range (t c : Nat) : ∀ k : Nat,
    ((List.range k).map (fun v => if t = v then c else 0)).sum =
      if t < k then c else 0 := by
  intro k
  induction k with
  | zero =>
    rw [if_neg (by omega)]
    rfl
  | succ k ih =>
    rw [List.range_succ, List.map_append, List.sum_append, ih]
    simp only [List.map_cons, List.map_nil, List.sum_cons, List.sum_nil]
    by_cases h1 : t < k
    · rw [if_pos h1, if_neg (by omega), if_pos (by omega)]
      omega
    · by_cases h2 : t = k
      · rw [if_neg h1, if_pos h2, if_pos (by omega)]
        omega
      · rw [if_neg h1, if_neg h2, if_neg (by omega)]
        omega

theorem blocks_perm (d : Nat → Nat) (l : List Nat) (hd : ∀ x ∈ l, d x < 2048) :
    List.Perm (blocks d l) l := by
  rw [List.perm_iff_count]
  intro a
  rw [blocks, List.count_flatten, List.map_map]
  have hcong : ∀ v ∈ List.range 2048,
      (List.count a ∘ fun v => l.filter (fun x => d x = v)) v =
        if d a = v then List.count a l else 0 := by
    intro v _
    simp only [Function.comp_apply]
    by_cases hv : d a = v
    · rw [if_pos hv]
      exact List.count_filter (by simpa using hv)
    · rw [if_neg hv]
      refine List.count_eq_zero.mpr (fun hmem => hv ?_)
      simpa using (List.mem_filter.mp hmem).2
  rw [List.map_congr_left hcong, sum_ite_range]
  by_cases ha : a ∈ l
  · rw [if_pos (hd a ha)]
  · rw [List.count_eq_zero.mpr ha, ite_self]

/-! ### The bucket decomposition sorts one more digit -/

theorem pairwise_imp_mem {R S : Nat → Nat → Prop} :
    ∀ {l : List Nat}, (∀ a b, a ∈ l → b ∈ l → R a b → S a b) →
      l.Pairwise R → l.Pairwise S := by
  intro l
  induction l with
  | nil => intro _ _; exact List.Pairwise.nil
  | cons x t ih =>
    intro h hp
    cases hp with
    | cons hx ht =>
      refine List.Pairwise.cons ?_ ?_
      · intro y hy
        exact h x y (List.mem_cons_self x t) (List.mem_cons_of_mem x hy) (hx y hy)
      · exact ih (fun a b ha hb => h a b (List.mem_cons_of_mem x ha)
          (List.mem_cons_of_mem x hb)) ht

theorem blocks_sorted (d : Nat → Nat) (m : Nat) (l : List Nat)
    (hd : ∀ x ∈ l, d x = x / 2 ^ m % 2048)
    (hl : l.Pairwise (fun a b => a % 2 ^ m ≤ b % 2 ^ m)) :
    (blocks d l).Pairwise
      (fun a b => a % (2 ^ m * 2048) ≤ b % (2 ^ m * 2048)) := by
  unfold blocks
  rw [List.pairwise_flatten]
  constructor
  · intro l' hl'
    rw [List.mem_map] at hl'
    obtain ⟨v, _, rfl⟩ := hl'
    have hfil : (l.filter (fun x => d x = v)).Pairwise
        (fun a b => a % 2 ^ m ≤ b % 2 ^ m) := List.Pairwise.filter _ hl
    refine pairwise_imp_mem ?_ hfil
    intro a b ha hb hra
    have hda : d a = v := by simpa using (List.mem_filter.mp ha).2
    have hdb : d b = v := by simpa using (List.mem_filter.mp hb).2
    have h1 : a / 2 ^ m % 2048 = v := by rw [← hd a (List.mem_filter.mp ha).1]; exact hda
    have h2 : b / 2 ^ m % 2048 = v := by rw [← hd b (List.mem_filter.mp hb).1]; exact hdb
    rw [Nat.mod_mul, Nat.mod_mul, h1, h2]
    exact Nat.add_le_add_right hra _
  · rw [List.pairwise_map]
    refine pairwise_imp_mem ?_ (List.pairwise_lt_range 2048)
    intro v w _ _ hvw a ha b hb
    have hda : d a = v := by simpa using (List.mem_filter.mp ha).2
    have hdb : d b = w := by simpa using (List.mem_filter.mp hb).2
    have h1 : a / 2 ^ m % 2048 = v := by rw [← hd a (List.mem_filter.mp ha).1]; exact hda
    have h2 : b / 2 ^ m % 2048 = w := by rw [← hd b (List.mem_filter.mp hb).1]; exact hdb
    rw [Nat.mod_mul, Nat.mod_mul, h1, h2]
    have hma : a % 2 ^ m < 2 ^ m := Nat.mod_lt _ (Nat.two_pow_pos m)
    refine Nat.le_of_lt ?_
    calc a % 2 ^ m + 2 ^ m * v
        < 2 ^ m * (v + 1) := by
          have he : 2 ^ m * (v + 1) = 2 ^ m * v + 2 ^ m := by ring
          omega
      _ ≤ 2 ^ m * w := Nat.mul_le_mul_left _ (by omega)
      _ ≤ b % 2 ^ m + 2 ^ m * w := Nat.le_add_left _ _

/-! ### Digit characterizations -/

theorem dig0_lt (x : Nat) : dig0 x < 2048 := by
  have h : dig0 x ≤ 0x7FF := Nat.and_le_right
  omega

theorem dig1_lt (x : Nat) : dig1 x < 2048 := by
  have h : dig1 x ≤ 0x7FF := Nat.and_le_right
  omega

theorem dig0_eq (x : Nat) : dig0 x = x / 2 ^ 0 % 2048 := by
  unfold dig0
  have h1 : (0x7FF : Nat) = 2 ^ 11 - 1 := by norm_num
  rw [h1, Nat.and_pow_two_sub_one_eq_mod]
  norm_num

theorem dig1_eq (x : Nat) : dig1 x = x / 2 ^ 11 % 2048 := by
  unfold dig1
  have h1 : (0x7FF : Nat) = 2 ^ 11 - 1 := by norm_num
  rw [h1, Nat.and_pow_two_sub_one_eq_mod, Nat.shiftRight_eq_div_pow]

theorem dig2_eq {x : Nat} (h : x < 2 ^ 32) : dig2 x = x / 2 ^ 22 % 2048 := by
  unfold dig2
  rw [Nat.shiftRight_eq_div_pow]
  have h22 : (2 : Nat) ^ 22 = 4194304 := by norm_num
  have h32 : x < 4294967296 := by omega
  rw [h22]
  omega

theorem dig2_lt {x : Nat} (h : x < 2 ^ 32) : dig2 x < 2048 := by
  rw [dig2_eq h]
  exact Nat.mod_lt _ (by omega)

/-! ### Count transfer lemmas -/

theorem cnt_le_length (d : Nat → Nat) (v : Nat) (l : List Nat) :
    cnt d v l ≤ l.length :=
  List.length_filter_le _ l

theorem cnt_map_flip (d : Nat → Nat) (v : Nat) (l : List Nat) :
    cnt d v (l.map FloatFlip) = cnt (fun x => d (FloatFlip x)) v l := by
  unfold cnt
  rw [List.filter_map, List.length_map]
  rfl

theorem cntLt_map_flip (d : Nat → Nat) (v : Nat) (l : List Nat) :
    cntLt d v (l.map FloatFlip) = cntLt (fun x => d (FloatFlip x)) v l := by
  unfold cntLt
  rw [List.filter_map, List.length_map]
  rfl

theorem cnt_perm {l1 l2 : List Nat} (h : List.Perm l1 l2) (d : Nat → Nat) (v : Nat) :
    cnt d v l1 = cnt d v l2 := by
  unfold cnt
  rw [← List.countP_eq_length_filter, ← List.countP_eq_length_filter]
  exact h.countP_eq _

theorem cntLt_perm {l1 l2 : List Nat} (h : List.Perm l1 l2) (d : Nat → Nat) (v : Nat) :
    cntLt d v l1 = cntLt d v l2 := by
  unfold cntLt
  rw [← List.countP_eq_length_filter, ← List.countP_eq_length_filter]
  exact h.countP_eq _

/-! ### Histogram and offset tables of the three passes -/

theorem hist_counts0 (input : List Nat) (hlen : input.length < 2 ^ 32) :
    ∀ v, (histPass input zeroHist).1 v = cnt (fun x => dig0 (FloatFlip x)) v input := by
  intro v
  unfold zeroHist
  rw [histPass_fst input _ _ _ v (by norm_num)]
  have hc : cnt (fun x => dig0 (FloatFlip x)) v input ≤ input.length :=
    cnt_le_length _ _ _
  simp only [Nat.zero_add]
  exact Nat.mod_eq_of_lt (by omega)

theorem hist_counts1 (input : List Nat) (hlen : input.length < 2 ^ 32) :
    ∀ v, (histPass input zeroHist).2.1 v = cnt (fun x => dig1 (FloatFlip x)) v input := by
  intro v
  unfold zeroHist
  rw [histPass_snd1 input _ _ _ v (by norm_num)]
  have hc : cnt (fun x => dig1 (FloatFlip x)) v input ≤ input.length :=
    cnt_le_length _ _ _
  simp only [Nat.zero_add]
  exact Nat.mod_eq_of_lt (by omega)

theorem hist_counts2 (input : List Nat) (hlen : input.length < 2 ^ 32) :
    ∀ v, (histPass input zeroHist).2.2 v = cnt (fun x => dig2 (FloatFlip x)) v input := by
  intro v
  unfold zeroHist
  rw [histPass_snd2 input _ _ _ v (by norm_num)]
  have hc : cnt (fun x => dig2 (FloatFlip x)) v input ≤ input.length :=
    cnt_le_length _ _ _
  simp only [Nat.zero_add]
  exact Nat.mod_eq_of_lt (by omega)

theorem hist_table0 (input : List Nat) (hlen : input.length < 2 ^ 32) :
    ∀ v, v < 2048 → prefixSums (histPass input zeroHist).1 v =
      (cntLt (fun x => dig0 (FloatFlip x)) v input + (2 ^ 32 - 1)) % 2 ^ 32 := by
  intro v hv
  rw [prefixSums_spec _ hv,
    sumSeg_cnt (fun w _ => hist_counts0 input hlen w) v (by omega)]

theorem hist_table1 (input : List Nat) (hlen : input.length < 2 ^ 32) :
    ∀ v, v < 2048 → prefixSums (histPass input zeroHist).2.1 v =
      (cntLt (fun x => dig1 (FloatFlip x)) v input + (2 ^ 32 - 1)) % 2 ^ 32 := by
  intro v hv
  rw [prefixSums_spec _ hv,
    sumSeg_cnt (fun w _ => hist_counts1 input hlen w) v (by omega)]

theorem hist_table2 (input : List Nat) (hlen : input.length < 2 ^ 32) :
    ∀ v, v < 2048 → prefixSums (histPass input zeroHist).2.2 v =
      (cntLt (fun x => dig2 (FloatFlip x)) v input + (2 ^ 32 - 1)) % 2 ^ 32 := by
  intro v hv
  rw [prefixSums_spec _ hv,
    sumSeg_cnt (fun w _ => hist_counts2 input hlen w) v (by omega)]

/-! ### The full three-pass pipeline -/

/-- After the call, the `sorted` buffer read back over indices 0..n-1 is the
three-fold stable bucket decomposition of the flipped keys, unflipped on the
way out, and the `farray` buffer is the two-fold decomposition (the flipped
keys as redistributed by the mid-digit pass). -/
theorem radix_pipeline (input : List Nat) (sortInit : Nat → Nat)
    (hbound : ∀ x ∈ input, x < 2 ^ 32) (hlen : input.length < 2 ^ 32) :
    (List.range input.length).map (RadixSort11 input sortInit).2 =
      (blocks dig2 (blocks dig1 (blocks dig0 (input.map FloatFlip)))).map IFloatFlip ∧
    (List.range input.length).map (RadixSort11 input sortInit).1 =
      blocks dig1 (blocks dig0 (input.map FloatFlip)) := by
  have hd0 : ∀ x ∈ input.map FloatFlip, dig0 x < 2048 := fun x _ => dig0_lt x
  have hlenK : (input.map FloatFlip).length < 2 ^ 32 := by
    rw [List.length_map]
    exact hlen
  have hb0 : ∀ v, v < 2048 → prefixSums (histPass input zeroHist).1 v =
      (cntLt dig0 v (input.map FloatFlip) + (2 ^ 32 - 1)) % 2 ^ 32 := by
    intro v hv
    rw [hist_table0 input hlen v hv, cntLt_map_flip]
  have hA := pass_output dig0 (fun x => x) (input.map FloatFlip)
    (prefixSums (histPass input zeroHist).1) sortInit hd0 hlenK hb0
  rw [List.map_id', List.length_map] at hA
  -- pass B
  have hperm0 : List.Perm (blocks dig0 (input.map FloatFlip)) (input.map FloatFlip) :=
    blocks_perm _ _ hd0
  have hd1 : ∀ x ∈ blocks dig0 (input.map FloatFlip), dig1 x < 2048 := fun x _ => dig1_lt x
  have hlen1 : (blocks dig0 (input.map FloatFlip)).length < 2 ^ 32 := by
    rw [hperm0.length_eq]
    exact hlenK
  have hb1 : ∀ v, v < 2048 → prefixSums (histPass input zeroHist).2.1 v =
      (cntLt dig1 v (blocks dig0 (input.map FloatFlip)) + (2 ^ 32 - 1)) % 2 ^ 32 := by
    intro v hv
    rw [hist_table1 input hlen v hv, ← cntLt_map_flip, cntLt_perm hperm0]
  have hB := pass_output dig1 (fun x => x) (blocks dig0 (input.map FloatFlip))
    (prefixSums (histPass input zeroHist).2.1) (fun i => input.getD i 0) hd1 hlen1 hb1
  rw [List.map_id'] at hB
  rw [show (blocks dig0 (input.map FloatFlip)).length = input.length from by
    rw [hperm0.length_eq, List.length_map]] at hB
  -- pass C
  have hperm1 : List.Perm (blocks dig1 (blocks dig0 (input.map FloatFlip)))
      (blocks dig0 (input.map FloatFlip)) := blocks_perm _ _ hd1
  have hmem2 : ∀ x ∈ blocks dig1 (blocks dig0 (input.map FloatFlip)), x < 2 ^ 32 := by
    intro x hx
    have hx' : x ∈ input.map FloatFlip := hperm0.mem_iff.mp (hperm1.mem_iff.mp hx)
    rw [List.mem_map] at hx'
    obtain ⟨y, hy, rfl⟩ := hx'
    exact floatFlip_lt (hbound y hy)
  have hd2 : ∀ x ∈ blocks dig1 (blocks dig0 (input.map FloatFlip)), dig2 x < 2048 :=
    fun x hx => dig2_lt (hmem2 x hx)
  have hlen2 : (blocks dig1 (blocks dig0 (input.map FloatFlip))).length < 2 ^ 32 := by
    rw [hperm1.length_eq]
    exact hlen1
  have hb2 : ∀ v, v < 2048 → prefixSums (histPass input zeroHist).2.2 v =
      (cntLt dig2 v (blocks dig1 (blocks dig0 (input.map FloatFlip))) +
        (2 ^ 32 - 1)) % 2 ^ 32 := by
    intro v hv
    rw [hist_table2 input hlen v hv, ← cntLt_map_flip, cntLt_perm hperm1,
      cntLt_perm hperm0]
  constructor
  · have hC := pass_output dig2 IFloatFlip (blocks dig1 (blocks dig0 (input.map FloatFlip)))
      (prefixSums (histPass input zeroHist).2.2)
      (scatterFold dig0 (fun x => x) (input.map FloatFlip)
        (prefixSums (histPass input zeroHist).1) sortInit).2 hd2 hlen2 hb2
    rw [show (blocks dig1 (blocks dig0 (input.map FloatFlip))).length = input.length from by
      rw [hperm1.length_eq, hperm0.length_eq, List.length_map]] at hC
    simp only [RadixSort11]
    rw [hA, hB]
    exact hC
  · simp only [RadixSort11]
    rw [hA]
    exact hB

/-! ### Sortedness of the composed passes -/

theorem pairwise_mod_one (l : List Nat) :
    l.Pairwise (fun a b => a % 2 ^ 0 ≤ b % 2 ^ 0) := by
  induction l with
  | nil => exact List.Pairwise.nil
  | cons x t ih =>
    refine List.Pairwise.cons (fun y _ => ?_) ih
    simp [Nat.mod_one]

theorem mem_blocks2_lt (input : List Nat) (hbound : ∀ x ∈ input, x < 2 ^ 32) :
    ∀ x ∈ blocks dig1 (blocks dig0 (input.map FloatFlip)), x < 2 ^ 32 := by
  intro x hx
  have hperm0 := blocks_perm dig0 (input.map FloatFlip) (fun y _ => dig0_lt y)
  have hperm1 := blocks_perm dig1 (blocks dig0 (input.map FloatFlip)) (fun y _ => dig1_lt y)
  have hx' : x ∈ input.map FloatFlip := hperm0.mem_iff.mp (hperm1.mem_iff.mp hx)
  rw [List.mem_map] at hx'
  obtain ⟨y, hy, rfl⟩ := hx'
  exact floatFlip_lt (hbound y hy)

theorem mem_blocks3_lt (input : List Nat) (hbound : ∀ x ∈ input, x < 2 ^ 32) :
    ∀ x ∈ blocks dig2 (blocks dig1 (blocks dig0 (input.map FloatFlip))), x < 2 ^ 32 := by
  intro x hx
  have hperm2 := blocks_perm dig2 (blocks dig1 (blocks dig0 (input.map FloatFlip)))
    (fun y hy => dig2_lt (mem_blocks2_lt input hbound y hy))
  exact mem_blocks2_lt input hbound x (hperm2.mem_iff.mp hx)

/-- The keys after the three stable bucket passes are sorted by unsigned
order. -/
theorem sorted_final (input : List Nat) (hbound : ∀ x ∈ input, x < 2 ^ 32) :
    (blocks dig2 (blocks dig1 (blocks dig0 (input.map FloatFlip)))).Pairwise
      (fun a b => a ≤ b) := by
  have hp1 := blocks_sorted dig0 0 (input.map FloatFlip)
    (fun x _ => dig0_eq x) (pairwise_mod_one _)
  have he1 : (2 : Nat) ^ 0 * 2048 = 2 ^ 11 := by norm_num
  rw [he1] at hp1
  have hp2 := blocks_sorted dig1 11 (blocks dig0 (input.map FloatFlip))
    (fun x _ => dig1_eq x) hp1
  have he2 : (2 : Nat) ^ 11 * 2048 = 2 ^ 22 := by norm_num
  rw [he2] at hp2
  have hp3 := blocks_sorted dig2 22 (blocks dig1 (blocks dig0 (input.map FloatFlip)))
    (fun x hx => dig2_eq (mem_blocks2_lt input hbound x hx)) hp2
  have he3 : (2 : Nat) ^ 22 * 2048 = 2 ^ 33 := by norm_num
  rw [he3] at hp3
  refine pairwise_imp_mem ?_ hp3
  intro a b ha hb hab
  have h1 : a % 2 ^ 33 = a :=
    Nat.mod_eq_of_lt (by have := mem_blocks3_lt input hbound a ha; omega)
  have h2 : b % 2 ^ 33 = b :=
    Nat.mod_eq_of_lt (by have := mem_blocks3_lt input hbound b hb; omega)
  rw [h1, h2] at hab
  exact hab

theorem map_range_pairwise_adjacent {R : Nat → Nat → Prop} {f : Nat → Nat} {n : Nat}
    (h : ((List.range n).map f).Pairwise R) :
    ∀ i, i + 1 < n → R (f i) (f (i + 1)) := by
  intro i hi
  rw [List.pairwise_iff_getElem] at h
  have h1 : i < ((List.range n).map f).length := by simpa using (by omega : i < n)
  have h2 : i + 1 < ((List.range n).map f).length := by simpa using hi
  have := h i (i + 1) h1 h2 (by omega)
  simpa using this

/-! ### The claims -/

/-- Claim C1: for every input array of n non-NaN 32-bit floats, after
`sort(input, output, n)` returns, the output buffer is non-decreasing: for
every adjacent pair of positions i, i+1, `output[i] <= output[i+1]` under the
float total order. -/
theorem claim_C1 (input : List Nat) (sortInit : Nat → Nat)
    (hbound : ∀ x ∈ input, x < 2 ^ 32)
    (hnan : ∀ x ∈ input, isNaNBits x = false)
    (hlen : input.length < 2 ^ 32) :
    ∀ i, i + 1 < input.length →
      floatLe ((RadixSort11 input sortInit).2 i)
        ((RadixSort11 input sortInit).2 (i + 1)) = true := by
  have hpipe := (radix_pipeline input sortInit hbound hlen).1
  have hfinal : ((blocks dig2 (blocks dig1 (blocks dig0
      (input.map FloatFlip)))).map IFloatFlip).Pairwise
      (fun a b => floatLe a b = true) := by
    rw [List.pairwise_map]
    refine pairwise_imp_mem ?_ (sorted_final input hbound)
    intro a b ha hb hab
    have hba : a < 2 ^ 32 := mem_blocks3_lt input hbound a ha
    have hbb : b < 2 ^ 32 := mem_blocks3_lt input hbound b hb
    apply floatLe_of_flip_le (iFloatFlip_lt hba) (iFloatFlip_lt hbb)
    rw [floatFlip_iFloatFlip hba, floatFlip_iFloatFlip hbb]
    exact hab
  rw [← hpipe] at hfinal
  exact fun i hi => map_range_pairwise_adjacent hfinal i hi

theorem claim_C1_witness :
    (∀ x ∈ ([0x40000000, 0x3F800000] : List Nat), x < 2 ^ 32) ∧
    (∀ x ∈ ([0x40000000, 0x3F800000] : List Nat), isNaNBits x = false) ∧
    (([0x40000000, 0x3F800000] : List Nat).length < 2 ^ 32) ∧
    floatLe ((RadixSort11 [0x40000000, 0x3F800000] (fun _ => 0)).2 0)
      ((RadixSort11 [0x40000000, 0x3F800000] (fun _ => 0)).2 (0 + 1)) = true :=
  ⟨by decide, by decide, by norm_num,
    claim_C1 [0x40000000, 0x3F800000] (fun _ => 0) (by decide) (by decide)
      (by norm_num) 0 (by norm_num)⟩

/-- Claim C2: for every input array of n 32-bit floats (NaN patterns
included), the multiset of values in the output buffer equals the multiset of
values in the input array at the call: the output read back over indices
0..n-1 is a permutation of the input. -/
theorem claim_C2 (input : List Nat) (sortInit : Nat → Nat)
    (hbound : ∀ x ∈ input, x < 2 ^ 32) (hlen : input.length < 2 ^ 32) :
    List.Perm ((List.range input.length).map (RadixSort11 input sortInit).2)
      input := by
  rw [(radix_pipeline input sortInit hbound hlen).1]
  have hperm0 := blocks_perm dig0 (input.map FloatFlip) (fun y _ => dig0_lt y)
  have hperm1 := blocks_perm dig1 (blocks dig0 (input.map FloatFlip))
    (fun y _ => dig1_lt y)
  have hperm2 := blocks_perm dig2 (blocks dig1 (blocks dig0 (input.map FloatFlip)))
    (fun y hy => dig2_lt (mem_blocks2_lt input hbound y hy))
  have hchain : List.Perm
      (blocks dig2 (blocks dig1 (blocks dig0 (input.map FloatFlip))))
      (input.map FloatFlip) := (hperm2.trans hperm1).trans hperm0
  have hmap := hchain.map IFloatFlip
  have hid : (input.map FloatFlip).map IFloatFlip = input := by
    rw [List.map_map]
    have hcongr : ∀ a ∈ input, (IFloatFlip ∘ FloatFlip) a = a := by
      intro a ha
      simp only [Function.comp_apply]
      exact iFloatFlip_floatFlip (hbound a ha)
    rw [List.map_congr_left hcongr, List.map_id']
  rw [hid] at hmap
  exact hmap

theorem claim_C2_witness :
    (∀ x ∈ ([0x40000000, 0x7FC00000, 0x3F800000] : List Nat), x < 2 ^ 32) ∧
    (([0x40000000, 0x7FC00000, 0x3F800000] : List Nat).length < 2 ^ 32) ∧
    List.Perm ((List.range ([0x40000000, 0x7FC00000, 0x3F800000] : List Nat).length).map
      (RadixSort11 [0x40000000, 0x7FC00000, 0x3F800000] (fun _ => 0)).2)
      [0x40000000, 0x7FC00000, 0x3F800000] :=
  ⟨by decide, by norm_num,
    claim_C2 [0x40000000, 0x7FC00000, 0x3F800000] (fun _ => 0) (by decide) (by norm_num)⟩

/-- Claim C3: for every 32-bit pattern representing a non-NaN float
(including both zeros and both infinities), `IFloatFlip (FloatFlip x) = x`. -/
theorem claim_C3 (f : Nat) (hf : f < 2 ^ 32) (hnan : isNaNBits f = false) :
    IFloatFlip (FloatFlip f) = f :=
  iFloatFlip_floatFlip hf

theorem claim_C3_witness :
    ((0x80000000 : Nat) < 2 ^ 32) ∧ (isNaNBits 0x80000000 = false) ∧
    IFloatFlip (FloatFlip 0x80000000) = 0x80000000 :=
  ⟨by norm_num, by decide, claim_C3 0x80000000 (by norm_num) (by decide)⟩

/-- Claim C4: for every pair of non-NaN floats with `a < b` under float
comparison, `FloatFlip (bitsOf a) < FloatFlip (bitsOf b)` as unsigned 32-bit
integers: the key transform is strictly order-preserving. -/
theorem claim_C4 (a b : Nat) (ha : a < 2 ^ 32) (hb : b < 2 ^ 32)
    (hna : isNaNBits a = false) (hnb : isNaNBits b = false)
    (hab : floatLt a b = true) : FloatFlip a < FloatFlip b :=
  floatFlip_strictMono ha hb hab

theorem claim_C4_witness :
    ((0xBF800000 : Nat) < 2 ^ 32) ∧ ((0x3F800000 : Nat) < 2 ^ 32) ∧
    (isNaNBits 0xBF800000 = false) ∧ (isNaNBits 0x3F800000 = false) ∧
    (floatLt 0xBF800000 0x3F800000 = true) ∧
    FloatFlip 0xBF800000 < FloatFlip 0x3F800000 :=
  ⟨by norm_num, by norm_num, by decide, by decide, by decide,
    claim_C4 0xBF800000 0x3F800000 (by norm_num) (by norm_num) (by decide)
      (by decide) (by decide)⟩

/-- Claim C5: the branch-free implementations equal their conditional
reference definitions: `FloatFlip f` is `f XOR 0xFFFFFFFF` when bit 31 of f
is set and `f XOR 0x80000000` otherwise, and `IFloatFlip f` is the converse. -/
theorem claim_C5 (f : Nat) (hf : f < 2 ^ 32) :
    FloatFlip f = (if f.testBit 31 then f ^^^ 0xFFFFFFFF else f ^^^ 0x80000000) ∧
    IFloatFlip f = (if f.testBit 31 then f ^^^ 0x80000000 else f ^^^ 0xFFFFFFFF) := by
  rw [testBit31_eq hf]
  have heF : (0xFFFFFFFF : Nat) = 2 ^ 32 - 1 := by norm_num
  have heS : (0x80000000 : Nat) = 2 ^ 31 := by norm_num
  by_cases hs : 2 ^ 31 ≤ f
  · rw [if_pos (decide_eq_true hs), if_pos (decide_eq_true hs)]
    constructor
    · rw [floatFlip_neg hs hf, heF, xor_allones hf]
    · rw [iFloatFlip_neg hs hf, heS, xor_two_pow_31_high hs hf]
  · rw [if_neg (fun hc => hs (of_decide_eq_true hc)),
      if_neg (fun hc => hs (of_decide_eq_true hc))]
    constructor
    · rw [floatFlip_pos (by omega), heS, xor_two_pow_31 (by omega)]
    · rw [iFloatFlip_pos (by omega), heF, xor_allones hf]

theorem claim_C5_witness :
    ((0xC0000000 : Nat) < 2 ^ 32) ∧
    (FloatFlip 0xC0000000 =
      (if (0xC0000000 : Nat).testBit 31 then 0xC0000000 ^^^ 0xFFFFFFFF
       else 0xC0000000 ^^^ 0x80000000) ∧
     IFloatFlip 0xC0000000 =
      (if (0xC0000000 : Nat).testBit 31 then 0xC0000000 ^^^ 0x80000000
       else 0xC0000000 ^^^ 0xFFFFFFFF)) :=
  ⟨by norm_num, claim_C5 0xC0000000 (by norm_num)⟩

/-- Claim C6: after the histogram pass over an input of n elements, each of
the three 2048-bucket histograms holds, at bucket v, the number of input
elements whose flipped key has low / mid / high digit equal to v; the three
histograms are built by the same single fold over the input, which only reads
the input. -/
theorem claim_C6 (input : List Nat) (hlen : input.length < 2 ^ 32) :
    ∀ v, v < 2048 →
      (histPass input zeroHist).1 v =
        (input.filter (fun x => dig0 (FloatFlip x) = v)).length ∧
      (histPass input zeroHist).2.1 v =
        (input.filter (fun x => dig1 (FloatFlip x) = v)).length ∧
      (histPass input zeroHist).2.2 v =
        (input.filter (fun x => dig2 (FloatFlip x) = v)).length := by
  intro v _
  exact ⟨hist_counts0 input hlen v, hist_counts1 input hlen v,
    hist_counts2 input hlen v⟩

theorem claim_C6_witness :
    (([0x3F800000, 0xBF800000] : List Nat).length < 2 ^ 32) ∧
    ((histPass [0x3F800000, 0xBF800000] zeroHist).1 0 =
      (([0x3F800000, 0xBF800000] : List Nat).filter
        (fun x => dig0 (FloatFlip x) = 0)).length ∧
     (histPass [0x3F800000, 0xBF800000] zeroHist).2.1 0 =
      (([0x3F800000, 0xBF800000] : List Nat).filter
        (fun x => dig1 (FloatFlip x) = 0)).length ∧
     (histPass [0x3F800000, 0xBF800000] zeroHist).2.2 0 =
      (([0x3F800000, 0xBF800000] : List Nat).filter
        (fun x => dig2 (FloatFlip x) = 0)).length) :=
  ⟨by norm_num, claim_C6 [0x3F800000, 0xBF800000] (by norm_num) 0 (by norm_num)⟩

/-- Claim C7: after the prefix-sum conversion, each offset-table entry v holds
(number of elements whose digit is strictly below v) minus 1 in wrapping
unsigned 32-bit arithmetic, so an entry with zero predecessors holds
0xFFFFFFFF; and the pre-increment-then-store scatter writes the first element
of the smallest occurring digit at index 0. -/
theorem claim_C7 (input : List Nat) (hlen : input.length < 2 ^ 32) :
    (∀ v, v < 2048 →
      prefixSums (histPass input zeroHist).1 v =
        (cntLt (fun x => dig0 (FloatFlip x)) v input + (2 ^ 32 - 1)) % 2 ^ 32 ∧
      prefixSums (histPass input zeroHist).2.1 v =
        (cntLt (fun x => dig1 (FloatFlip x)) v input + (2 ^ 32 - 1)) % 2 ^ 32 ∧
      prefixSums (histPass input zeroHist).2.2 v =
        (cntLt (fun x => dig2 (FloatFlip x)) v input + (2 ^ 32 - 1)) % 2 ^ 32) ∧
    (∀ v, v < 2048 → cntLt (fun x => dig0 (FloatFlip x)) v input = 0 →
      prefixSums (histPass input zeroHist).1 v = 0xFFFFFFFF) ∧
    (∀ (d st : Nat → Nat) (src : List Nat) (b out0 : Nat → Nat),
      (∀ x ∈ src, d x < 2048) → src.length < 2 ^ 32 →
      (∀ v, v < 2048 → b v = (cntLt d v src + (2 ^ 32 - 1)) % 2 ^ 32) →
      ∀ v, v < 2048 → cntLt d v src = 0 → 0 < cnt d v src →
        (scatterFold d st src b out0).2 0 =
          st ((src.filter (fun z => d z = v)).getD 0 0)) := by
  refine ⟨fun v hv => ⟨hist_table0 input hlen v hv, hist_table1 input hlen v hv,
    hist_table2 input hlen v hv⟩, ?_, ?_⟩
  · intro v hv h0
    rw [hist_table0 input hlen v hv, h0]
    norm_num
  · intro d st src b out0 hd hlen' hb v hv h0 hcnt
    have hplace : ∀ w, w < 2048 → ∀ j, j < cnt d w src →
        (scatterFold d st src b out0).2 (cntLt d w src + j) =
          st ((src.filter (fun z => d z = w)).getD j 0) := by
      intro w hw j hj
      refine scatterFold_spec d st src hd hlen' src [] b out0 rfl ?_ ?_ w hw j hj
      · intro u hu
        rw [cnt_nil, Nat.add_zero]
        exact hb u hu
      · intro u hu jj hjj
        rw [cnt_nil] at hjj
        omega
    have hx := hplace v hv 0 hcnt
    rw [h0] at hx
    simpa using hx

theorem claim_C7_witness :
    (([0x3F800000] : List Nat).length < 2 ^ 32) ∧
    (prefixSums (histPass [0x3F800000] zeroHist).1 0 =
      (cntLt (fun x => dig0 (FloatFlip x)) 0 [0x3F800000] + (2 ^ 32 - 1)) % 2 ^ 32 ∧
     prefixSums (histPass [0x3F800000] zeroHist).2.1 0 =
      (cntLt (fun x => dig1 (FloatFlip x)) 0 [0x3F800000] + (2 ^ 32 - 1)) % 2 ^ 32 ∧
     prefixSums (histPass [0x3F800000] zeroHist).2.2 0 =
      (cntLt (fun x => dig2 (FloatFlip x)) 0 [0x3F800000] + (2 ^ 32 - 1)) % 2 ^ 32) :=
  ⟨by norm_num, (claim_C7 [0x3F800000] (by norm_num)).1 0 (by norm_num)⟩

/-- Claim C8: on a zero-length input, the sort writes nothing to the output
buffer: the final `sorted` buffer is the caller's prior contents unchanged,
and the model is total (no fault). -/
theorem claim_C8 (sortInit : Nat → Nat) : (RadixSort11 [] sortInit).2 = sortInit :=
  rfl

set_option maxRecDepth 40000 in
/-- Claim C9: the sort does not preserve the caller's input array: after the
call the `farray` buffer holds the flipped keys as redistributed by the
mid-digit scatter pass, and there is an input of at least 2 elements on which
the buffer differs from the original contents. -/
theorem claim_C9 :
    (∀ (input : List Nat) (sortInit : Nat → Nat),
      (∀ x ∈ input, x < 2 ^ 32) → input.length < 2 ^ 32 →
      (List.range input.length).map (RadixSort11 input sortInit).1 =
        blocks dig1 (blocks dig0 (input.map FloatFlip))) ∧
    (∃ input : List Nat, 2 ≤ input.length ∧ ∃ i, i < input.length ∧
      (RadixSort11 input (fun _ => 0)).1 i ≠ input.getD i 0) := by
  constructor
  · intro input sortInit hbound hlen
    exact (radix_pipeline input sortInit hbound hlen).2
  · exact ⟨[0x3F800000, 0x40000000], by norm_num, 0, by norm_num, by decide⟩

theorem claim_C9_witness :
    (∀ x ∈ ([0x3F800000, 0x40000000] : List Nat), x < 2 ^ 32) ∧
    (([0x3F800000, 0x40000000] : List Nat).length < 2 ^ 32) ∧
    (List.range ([0x3F800000, 0x40000000] : List Nat).length).map
      (RadixSort11 [0x3F800000, 0x40000000] (fun _ => 0)).1 =
      blocks dig1 (blocks dig0 (([0x3F800000, 0x40000000] : List Nat).map FloatFlip)) :=
  ⟨by decide, by norm_num,
    claim_C9.1 [0x3F800000, 0x40000000] (fun _ => 0) (by decide) (by norm_num)⟩

/-- Claim C10: for every 32-bit word, NaN patterns included, the two
transforms are mutually inverse bijections on the whole 32-bit domain:
`IFloatFlip (FloatFlip x) = x` and `FloatFlip (IFloatFlip x) = x`. -/
theorem claim_C10 (x : Nat) (hx : x < 2 ^ 32) :
    IFloatFlip (FloatFlip x) = x ∧ FloatFlip (IFloatFlip x) = x :=
  ⟨iFloatFlip_floatFlip hx, floatFlip_iFloatFlip hx⟩

theorem claim_C10_witness :
    ((0x7FC00000 : Nat) < 2 ^ 32) ∧
    (IFloatFlip (FloatFlip 0x7FC00000) = 0x7FC00000 ∧
     FloatFlip (IFloatFlip 0x7FC00000) = 0x7FC00000) :=
  ⟨by norm_num, claim_C10 0x7FC00000 (by norm_num)⟩
